import Mathlib

/-!
Verification of the task scheduling and scoring engine of the COA generator
(src/coa_generator.py and src/enhanced_coa.py, with the pydantic data model
in src/datamodel.py, whose first line names it pydantic_models_coa.py).

Modelling conventions:
* Instants are integer epoch milliseconds, exactly as in coa_generator.py
  (`int(datetime.fromisoformat(...).timestamp()*1000)`).  ISO-8601 string
  parsing itself is abstracted at the boundary: a field holding a parseable
  timestamp is modelled as `some ms`, a missing or unparseable one as `none`
  (matching `_parse_iso`, which returns its default in both of those cases).
* Python float arithmetic in the scorer is idealised as exact rational
  arithmetic (`ℚ`), following the spec's real-number reading of the formulas.
* Python dictionaries that are only ever read through `get`/`[]` are modelled
  as total functions built by the same sequence of updates the source performs.
* A Python function that can raise is modelled as returning `Option`, with
  `none` for the raised exception.
-/

namespace Coa

/-- One risk descriptor attached to a task (desc/likelihood/impact).  The
scheduling and scoring core only ever uses the number of risk items. -/
structure RiskItem where
  desc : String
  likelihood : String
  impact : String
  deriving DecidableEq, Repr

/-- A task, as consumed by `_toposort`, `_schedule` and `_score` in
src/coa_generator.py (a loosely typed dict there) and src/enhanced_coa.py
(the pydantic `Task` of src/datamodel.py).  `duration_hours = none` models a
missing or `None` entry; `window_start` is the parsed `window["start"]`
instant in epoch milliseconds, `none` when absent or unparseable;
`resources` is the resource-name ↦ integer-quantity mapping. -/
structure Task where
  id : String
  dependencies : List String
  duration_hours : Option ℚ
  window_start : Option Int
  risks : List RiskItem
  resources : List (String × Int)
  deriving DecidableEq, Repr

/-- The five objective weights (`objectives` dict in coa_generator.py,
`ObjectiveWeights` in datamodel.py). -/
structure Weights where
  speed : ℚ
  safety : ℚ
  sustainment : ℚ
  cost : ℚ
  simplicity : ℚ
  deriving DecidableEq, Repr

/-- The scorer's output record (`Metrics` in datamodel.py, the dict returned
by `_score` in coa_generator.py). -/
structure Metrics where
  speed : ℚ
  safety : ℚ
  sustainment : ℚ
  cost : ℚ
  simplicity : ℚ
  composite : ℚ
  deriving DecidableEq, Repr

/-- `_clamp01(x) = max(0.0, min(1.0, x))` (coa_generator.py line 17,
enhanced_coa.py lines 29-30). -/
def clamp01 (x : ℚ) : ℚ := max 0 (min 1 x)

/-- `float(t.get("duration_hours") or 1.0)` (coa_generator.py lines 53, 59):
a missing/`None` duration and a duration of `0` (both falsy in Python) are
replaced by `1.0`. -/
def effDuration (t : Task) : ℚ :=
  match t.duration_hours with
  | none => 1
  | some d => if d = 0 then 1 else d

/-- Pointwise update of a dict modelled as a total function into `Int`. -/
def updateF (f : String → Int) (k : String) (v : Int) : String → Int :=
  fun x => if x = k then v else f x

/-- Pointwise update of a dict modelled as a total function into lists. -/
def updateG (g : String → List String) (k : String) (v : List String) :
    String → List String :=
  fun x => if x = k then v else g x

/-- The `indeg` dict after the two build loops of `_toposort`
(coa_generator.py lines 28-33, identically enhanced_coa.py lines 33-40):
start every task id at 0, then add 1 to `indeg[t.id]` once per entry of
`t.dependencies` (including unknown or duplicated dependency ids, exactly as
the source does).  Missing keys read as 0 (`indeg.get(_, 0)`), so the
`setdefault(t.id, 0)` pass is the identity on this model. -/
def buildIndeg (tasks : List Task) : String → Int :=
  tasks.foldl
    (fun f t => t.dependencies.foldl (fun f2 _ => updateF f2 t.id (f2 t.id + 1)) f)
    (fun _ => 0)

/-- The adjacency dict `g` after the build loop of `_toposort`: for each task
`t` and each entry `d` of `t.dependencies`, append `t.id` to `g[d]`. -/
def buildG (tasks : List Task) : String → List String :=
  tasks.foldl
    (fun g t => t.dependencies.foldl (fun g2 d => updateG g2 d (g2 d ++ [t.id])) g)
    (fun _ => [])

/-- The inner loop of `_toposort`'s while loop: for each `nxt` in `g[v]`,
decrement `indeg[nxt]` and append `nxt` to the queue when it reaches exactly
0 (coa_generator.py lines 38-40). -/
def processEdges (targets : List String) (ind : String → Int) (q : List String) :
    (String → Int) × List String :=
  targets.foldl
    (fun p nxt =>
      let ind2 := updateF p.1 nxt (p.1 nxt - 1)
      if ind2 nxt = 0 then (ind2, p.2 ++ [nxt]) else (ind2, p.2))
    (ind, q)

/-- The while loop of `_toposort` (coa_generator.py lines 36-40): pop the
queue head, append it to `out`, fire its outgoing edges.  The loop is given
explicit fuel; `2 * tasks.length + 1` is always enough, because every queue
entry is enqueued exactly once — the initial queue holds at most one entry
per task, and a later enqueue of `x` happens only at the unique step where
the strictly decreasing counter `indeg[x]` reaches 0 — so the number of
iterations of the source's loop never exceeds twice the number of tasks. -/
def kahnLoop (g : String → List String) :
    Nat → (String → Int) → List String → List String → List String
  | _, _, [], out => out
  | 0, _, _ :: _, out => out
  | fuel + 1, ind, v :: rest, out =>
      let p := processEdges (g v) ind rest
      kahnLoop g fuel p.1 p.2 (out ++ [v])

/-- `_toposort(tasks)` (coa_generator.py lines 27-41, enhanced_coa.py lines
32-50, which are the same algorithm on pydantic tasks): Kahn's algorithm with
a FIFO queue seeded with the zero-in-degree task ids in declaration order;
if the loop emits fewer ids than there are tasks, fall back to the original
declaration order. -/
def toposortIds (tasks : List Task) : List String :=
  let ind := buildIndeg tasks
  let g := buildG tasks
  let q0 := (tasks.filter (fun t => ind t.id = 0)).map (fun t => t.id)
  let out := kahnLoop g (2 * tasks.length + 1) ind q0 []
  if out.length = tasks.length then out else tasks.map (fun t => t.id)

/-- `dur_ms = int(float(t.get("duration_hours") or 1.0) * 3600_000)`
(coa_generator.py line 53) under the exact-rational idealisation of floats:
Python `int()` truncates toward zero, and toward-zero truncation of the
rational `3600000·d = (3600000·d.num)/d.den` is `Int.tdiv` of its numerator
by its (positive) denominator. -/
def durationMs (t : Task) : Int :=
  let d := effDuration t
  (3600000 * d.num).tdiv (d.den : Int)

/-- The dict comprehension `{t["id"]: t for t in tasks}` (coa_generator.py
line 45): later tasks overwrite earlier ones that share an id. -/
def taskMap (tasks : List Task) : String → Option Task :=
  tasks.foldl (fun f t => fun x => if x = t.id then some t else f x) (fun _ => none)

/-- Python `max(l, default=d)`: the default is used only when the list is
empty; otherwise it is the maximum of the list, which may be smaller than
the default. -/
def maxWithDefault (dflt : Int) : List Int → Int
  | [] => dflt
  | e :: es => es.foldl max e

/-- The scheduling loop of `_schedule` (coa_generator.py lines 48-54): walk
the toposorted order, look the task up in `tmap`, gather
`[times[d]["end"] for d in dependencies]` — which in Python raises `KeyError`
(modelled as `none`) as soon as some dependency has no entry in `times` —
take `max(..., default=now_ms)`, floor the start by the parsed window start
(defaulting to `now_ms`), and record `(start, start + duration_ms)`. -/
def schedGo (tmap : String → Option Task) (nowMs : Int) :
    List String → (String → Option (Int × Int)) → Option (String → Option (Int × Int))
  | [], times => some times
  | tid :: rest, times =>
      match tmap tid with
      | none => none
      | some t =>
          match t.dependencies.mapM (fun d => (times d).map (fun p => p.2)) with
          | none => none
          | some depEnds =>
              let depsEnd := maxWithDefault nowMs depEnds
              let winStart := match t.window_start with | some w => w | none => nowMs
              let start := max depsEnd winStart
              schedGo tmap nowMs rest
                (fun x => if x = tid then some (start, start + durationMs t) else times x)

/-- `_schedule(tasks, now_iso)` (coa_generator.py lines 43-56).  `nowIso` is
the parsed caller-supplied reference instant (`none` when the string is
missing/empty/unparseable), and `ambientNowMs` is the wall-clock instant that
line 46 reads from `datetime.now(timezone.utc)` and hands to `_parse_iso` as
the fallback default.  The result lists `(id, start, end)` in toposorted
order, read back from the final `times` dict; `none` models the `KeyError`
raised when a dependency is looked up before being scheduled. -/
def scheduleG (tasks : List Task) (nowIso : Option Int) (ambientNowMs : Int) :
    Option (List (String × Int × Int)) :=
  let order := toposortIds tasks
  let nowMs := nowIso.getD ambientNowMs
  match schedGo (taskMap tasks) nowMs order (fun _ => none) with
  | none => none
  | some times => order.mapM (fun tid => (times tid).map (fun p => (tid, p.1, p.2)))

/-- `total_h` of `_score` in coa_generator.py line 59 (note the `or 1.0`
duration default). -/
def totalHoursG (tasks : List Task) : ℚ :=
  (tasks.map (fun t => effDuration t)).sum

/-- `risk_ct = sum(len(t.get("risks") or []) for t in tasks)` — identical in
both scorers. -/
def riskCount (tasks : List Task) : Nat :=
  (tasks.map (fun t => t.risks.length)).sum

/-- `res_sum = sum(sum((t.get("resources") or {}).values()) for t in tasks)`
(coa_generator.py line 61): raw sum of the resource quantities. -/
def resourceSumG (tasks : List Task) : Int :=
  (tasks.map (fun t => (t.resources.map (fun p => p.2)).sum)).sum

/-- `dep_sum = sum(len(t.get("dependencies") or []) for t in tasks)` —
identical in both scorers. -/
def depCount (tasks : List Task) : Nat :=
  (tasks.map (fun t => t.dependencies.length)).sum

/-- `_score(tasks, w)` of coa_generator.py lines 58-68. -/
def scoreG (tasks : List Task) (w : Weights) : Metrics :=
  let speed := clamp01 (1 - totalHoursG tasks / 72)
  let safety := clamp01 (1 - (riskCount tasks : ℚ) / 12)
  let sustain := clamp01 (1 - (resourceSumG tasks : ℚ) / 30)
  let cost := clamp01 (1 - (resourceSumG tasks : ℚ) / 30)
  let simplicity := clamp01 (1 - (depCount tasks : ℚ) / 20)
  let comp := clamp01 (speed * w.speed + safety * w.safety + sustain * w.sustainment +
      cost * w.cost + simplicity * w.simplicity)
  ⟨speed, safety, sustain, cost, simplicity, comp⟩

/-- `total_h = sum(float(t.duration_hours) for t in tasks)` of
enhanced_coa.py line 73.  The pydantic `Task` of datamodel.py requires
`duration_hours` (`float = Field(gt=0)`), so on the shared `Task` record the
`none` branch (`getD 0`) is unreachable for validated enhanced tasks. -/
def totalHoursE (tasks : List Task) : ℚ :=
  (tasks.map (fun t => t.duration_hours.getD 0)).sum

/-- `res_sum += sum(max(0, int(v)) for v in t.resources.values())` of
enhanced_coa.py line 80: each quantity is clamped below by 0. -/
def resourceSumE (tasks : List Task) : Int :=
  (tasks.map (fun t => (t.resources.map (fun p => max 0 p.2)).sum)).sum

/-- `_score(tasks, w)` of enhanced_coa.py lines 71-98. -/
def scoreE (tasks : List Task) (w : Weights) : Metrics :=
  let speed := clamp01 (1 - totalHoursE tasks / 72)
  let safety := clamp01 (1 - (riskCount tasks : ℚ) / 12)
  let sustain := clamp01 (1 - (resourceSumE tasks : ℚ) / 30)
  let cost := clamp01 (1 - (resourceSumE tasks : ℚ) / 30)
  let simplicity := clamp01 (1 - (depCount tasks : ℚ) / 20)
  let comp := clamp01 (speed * w.speed + safety * w.safety + sustain * w.sustainment +
      cost * w.cost + simplicity * w.simplicity)
  ⟨speed, safety, sustain, cost, simplicity, comp⟩

/-- Dependency edge of a task set: `DepEdge tasks a b` holds when some task
with id `b` lists `a` among its dependencies (the edge runs dependency →
dependent, as in the spec). -/
def DepEdge (tasks : List Task) (a b : String) : Prop :=
  ∃ t ∈ tasks, t.id = b ∧ a ∈ t.dependencies

/-- The dependency graph has no directed cycle. -/
def Acyclic (tasks : List Task) : Prop :=
  ∀ x, ¬ Relation.TransGen (DepEdge tasks) x x

/-- The dependency graph contains a directed cycle. -/
def HasCycle (tasks : List Task) : Prop :=
  ∃ x, Relation.TransGen (DepEdge tasks) x x

/-- The ids of a task set, in declaration order. -/
def idsOf (tasks : List Task) : List String := tasks.map (fun t => t.id)

/-- Task ids are pairwise distinct (spec §3 invariant on `Task.id`). -/
def UniqueIds (tasks : List Task) : Prop :=
  (idsOf tasks).Nodup

/-- Every declared dependency id names a task of the set (spec §3 invariant
on `Task.dependencies`). -/
def DepsKnown (tasks : List Task) : Prop :=
  ∀ t ∈ tasks, ∀ d ∈ t.dependencies, d ∈ idsOf tasks

instance (tasks : List Task) : Decidable (UniqueIds tasks) := by
  unfold UniqueIds
  infer_instance

instance (tasks : List Task) : Decidable (DepsKnown tasks) := by
  unfold DepsKnown
  infer_instance

/-- The number of dependency entries of `t` (with multiplicity) whose id has
not yet been emitted into `out`: the quantity that `indeg[t.id]` tracks
during Kahn's algorithm. -/
def unfired (t : Task) (out : List String) : Nat :=
  (t.dependencies.filter (fun d => decide (d ∉ out))).length

/-- Loop invariant of `_toposort`'s while loop, at the top of each iteration:
`out` is the emitted list, `q` the queue, `ind` the current `indeg` dict.
It records that emitted-plus-queued ids are distinct task ids, that
`indeg[t.id]` counts the dependency entries of `t` not yet emitted, that a
task id is emitted-or-queued exactly when all its dependencies are emitted,
and that every emitted task appears after all its dependencies. -/
structure KInv (tasks : List Task) (ind : String → Int) (q out : List String) : Prop where
  nodup : (out ++ q).Nodup
  sub : ∀ x ∈ out ++ q, x ∈ idsOf tasks
  deg : ∀ t ∈ tasks, ind t.id = (unfired t out : Int)
  ready : ∀ t ∈ tasks, (t.id ∈ out ++ q ↔ ∀ d ∈ t.dependencies, d ∈ out)
  ord : ∀ l1 x l2, out = l1 ++ x :: l2 → ∀ t ∈ tasks, t.id = x →
    ∀ d ∈ t.dependencies, d ∈ l1

/-- Convenience constructor for concrete test tasks. -/
def mkTask (i : String) (deps : List String) (dur : ℚ) : Task :=
  ⟨i, deps, some dur, none, [], []⟩

/-- Two tasks that depend on each other: the canonical cyclic input. -/
def exCycleTasks : List Task := [mkTask "T1" ["T2"] 1, mkTask "T2" ["T1"] 1]

/-- Acyclic three-task input where FIFO order and declared-order rescanning
disagree: A (no deps), B (depends on A), C (no deps). -/
def exScanTasks : List Task := [mkTask "A" [] 1, mkTask "B" ["A"] 1, mkTask "C" [] 1]

/-- The three-task scenario of spec §8: T1 4h no deps, T2 3h after T1,
T3 6h after T1 and T2, no risks, no resources. -/
def exThreeTasks : List Task :=
  [mkTask "T1" [] 4, mkTask "T2" ["T1"] 3, mkTask "T3" ["T1", "T2"] 6]

/-- The default weighting {speed .35, safety .25, sustainment .15, cost .10,
simplicity .15} of coa_generator.py line 152 / enhanced_coa.py line 262. -/
def defaultWeights : Weights :=
  ⟨35/100, 25/100, 15/100, 10/100, 15/100⟩

/-- The all-zero weighting (a legal `objectives` dict for coa_generator.py,
which never validates the weights). -/
def zeroWeights : Weights := ⟨0, 0, 0, 0, 0⟩

/-- One isolated one-hour task. -/
def exPlainTasks : List Task := [mkTask "A" [] 1]

/-- One task whose single dependency id names no task of the set. -/
def exUnknownDepTasks : List Task := [mkTask "A" ["X"] 1]

/-- The claimed tie-break rule of spec §4.1 (written from the claim's words,
not from the source, for comparison): at each step emit the first task in
original declared order, among tasks not yet emitted, whose current
in-degree is zero — that is, whose dependencies are all already emitted. -/
def claimScanStep (tasks : List Task) (emitted : List String) : Option Task :=
  tasks.find? (fun t =>
    !(emitted.contains t.id) && t.dependencies.all (fun d => emitted.contains d))

/-- Iterate `claimScanStep` until no candidate remains (at most one emission
per task, so `tasks.length` rounds suffice). -/
def claimScanGo (tasks : List Task) : Nat → List String → List String
  | 0, acc => acc
  | n + 1, acc =>
      match claimScanStep tasks acc with
      | none => acc
      | some t => claimScanGo tasks n (acc ++ [t.id])

/-- The full emission order prescribed by the claim's declared-order rescan
rule. -/
def claimScanOrder (tasks : List Task) : List String :=
  claimScanGo tasks tasks.length []

/-- Non-negativity of `_clamp01`. -/
theorem clamp01_nonneg (x : ℚ) : 0 ≤ clamp01 x := le_max_left 0 _

/-- `_clamp01` never exceeds 1. -/
theorem clamp01_le_one (x : ℚ) : clamp01 x ≤ 1 :=
  max_le (by norm_num) (min_le_left 1 x)

/-- All six fields of a `Metrics` value lie in the closed interval [0,1]. -/
def MetricsBounded (m : Metrics) : Prop :=
  0 ≤ m.speed ∧ m.speed ≤ 1 ∧ 0 ≤ m.safety ∧ m.safety ≤ 1 ∧
  0 ≤ m.sustainment ∧ m.sustainment ≤ 1 ∧ 0 ≤ m.cost ∧ m.cost ≤ 1 ∧
  0 ≤ m.simplicity ∧ m.simplicity ≤ 1 ∧ 0 ≤ m.composite ∧ m.composite ≤ 1

/-- C1 (the schedule operation on malformed graphs): on the two-task cycle
T1 ↔ T2, and on a task whose dependency id is unknown, `_schedule` does NOT
substitute the reference instant for the missing dependency entry — the
lookup `times[d]["end"]` fails (Python: `KeyError`; here: `none`), so the
operation does not return a result.  This refutes the claim's "always
returns, never throws" and exhibits the failing inputs. -/
theorem schedule_fails_on_malformed :
    scheduleG exCycleTasks (some 0) 0 = none ∧
    scheduleG exUnknownDepTasks (some 0) 0 = none := by decide

/-- C3 (counterexample): on tasks A (no deps), B (depends on A), C (no deps),
declared in that order, the source's FIFO queue emits ["A", "C", "B"], while
the claim's declared-order rescan rule would emit ["A", "B", "C"]: after A is
emitted both B and C have in-degree zero and B comes first in input order,
yet the code emits C next. -/
theorem toposort_fifo_breaks_declared_order_rescan :
    toposortIds exScanTasks = ["A", "C", "B"] ∧
    claimScanOrder exScanTasks = ["A", "B", "C"] ∧
    toposortIds exScanTasks ≠ claimScanOrder exScanTasks := by decide

/-- Shared computation: the value of `_score` on the three-task scenario of
spec §8 under the default weights. -/
lemma scoreG_exThree_eq :
    scoreG exThreeTasks defaultWeights = ⟨59/72, 1, 1, 1, 17/20, 6583/7200⟩ := by
  simp [scoreG, totalHoursG, riskCount, resourceSumG, depCount, effDuration,
    mkTask, exThreeTasks, defaultWeights, clamp01]
  norm_num

/-- C7 (amended): on the three-task scenario (T1 4h no deps, T2 3h after T1,
T3 6h after T1 and T2, no risks, no resources) with the default weights,
speed = clamp01(1 - 13/72) = 59/72, safety = sustainment = cost = 1,
simplicity = clamp01(1 - 3/20) = 17/20 — exactly as the claim lists — but the
composite is 0.35·(59/72) + 0.25 + 0.15 + 0.10 + 0.15·(17/20) = 6583/7200
≈ 0.9143, not ≈ 0.8368. -/
theorem score_concrete_scenario :
    scoreG exThreeTasks defaultWeights = ⟨59/72, 1, 1, 1, 17/20, 6583/7200⟩ :=
  scoreG_exThree_eq

/-- C7 (counterexample): the composite on the claim's own concrete scenario
is not within 0.01 of the claimed value 0.8368 (it is 6583/7200 ≈ 0.9143). -/
theorem score_concrete_scenario_not_08368 :
    ¬ |(scoreG exThreeTasks defaultWeights).composite - 8368/10000| ≤ 1/100 := by
  rw [scoreG_exThree_eq]
  rw [abs_of_pos (by norm_num)]
  norm_num

/-- C8: for every task set and every weighting, all five sub-scores and the
composite of both scorers lie in [0,1] — in particular for arbitrary
non-negative durations, risk counts, resource quantities and dependency
counts, however large, since every field is the image of `_clamp01`. -/
theorem score_bounded (tasks : List Task) (w : Weights)
    (hdur : ∀ t ∈ tasks, ∀ d, t.duration_hours = some d → 0 ≤ d)
    (hres : ∀ t ∈ tasks, ∀ p ∈ t.resources, 0 ≤ p.2) :
    MetricsBounded (scoreG tasks w) ∧ MetricsBounded (scoreE tasks w) := by
  constructor <;>
    exact ⟨clamp01_nonneg _, clamp01_le_one _, clamp01_nonneg _, clamp01_le_one _,
      clamp01_nonneg _, clamp01_le_one _, clamp01_nonneg _, clamp01_le_one _,
      clamp01_nonneg _, clamp01_le_one _, clamp01_nonneg _, clamp01_le_one _⟩

/-- Witness for C8 at a concrete input. -/
theorem score_bounded_witness :
    (∀ t ∈ exThreeTasks, ∀ d, t.duration_hours = some d → 0 ≤ d) ∧
    (∀ t ∈ exThreeTasks, ∀ p ∈ t.resources, 0 ≤ p.2) ∧
    (MetricsBounded (scoreG exThreeTasks defaultWeights) ∧
      MetricsBounded (scoreE exThreeTasks defaultWeights)) := by
  have h1 : ∀ t ∈ exThreeTasks, ∀ d, t.duration_hours = some d → 0 ≤ d := by
    intro t ht d hd
    simp only [exThreeTasks, mkTask, List.mem_cons, List.not_mem_nil, or_false] at ht
    rcases ht with h | h | h <;> subst h <;>
      simp only [Option.some.injEq] at hd <;> rw [hd.symm] <;> norm_num
  have h2 : ∀ t ∈ exThreeTasks, ∀ p ∈ t.resources, 0 ≤ p.2 := by
    intro t ht p hp
    simp only [exThreeTasks, mkTask, List.mem_cons, List.not_mem_nil, or_false] at ht
    rcases ht with h | h | h <;> subst h <;> simp at hp
  exact ⟨h1, h2, score_bounded exThreeTasks defaultWeights h1 h2⟩

/-- C6 (counterexample): with the all-zero weighting — all five weights
non-negative — and the empty task set (all totals zero), the composite is
clamp01(0) = 0, not 1.0. -/
theorem score_zero_weights_composite_zero :
    (scoreG [] zeroWeights).composite = 0 ∧ (scoreG [] zeroWeights).composite ≠ 1 := by
  have h : (scoreG [] zeroWeights).composite = 0 := by
    simp [scoreG, zeroWeights, totalHoursG, riskCount, resourceSumG, depCount, clamp01]
  exact ⟨h, by rw [h]; norm_num⟩

/-- C6 (amended): when all five weights are non-negative AND their sum is at
least 1, a task set inducing zero total duration, zero risk count, zero
resource units and zero dependency edges (for each scorer's own totals,
e.g. the empty task set) receives composite exactly 1. -/
theorem score_saturates_to_one (tasks : List Task) (w : Weights)
    (hw1 : 0 ≤ w.speed) (hw2 : 0 ≤ w.safety) (hw3 : 0 ≤ w.sustainment)
    (hw4 : 0 ≤ w.cost) (hw5 : 0 ≤ w.simplicity)
    (hwsum : 1 ≤ w.speed + w.safety + w.sustainment + w.cost + w.simplicity)
    (h1 : totalHoursG tasks = 0) (h2 : riskCount tasks = 0)
    (h3 : resourceSumG tasks = 0) (h4 : depCount tasks = 0)
    (h5 : totalHoursE tasks = 0) (h6 : resourceSumE tasks = 0) :
    (scoreG tasks w).composite = 1 ∧ (scoreE tasks w).composite = 1 := by
  have hone : ∀ s : ℚ, 1 ≤ s → clamp01 s = 1 := by
    intro s hs
    rw [clamp01, min_eq_left hs]
    norm_num
  have hcl1 : clamp01 1 = 1 := hone 1 le_rfl
  constructor
  · show clamp01 (clamp01 (1 - totalHoursG tasks / 72) * w.speed +
        clamp01 (1 - (riskCount tasks : ℚ) / 12) * w.safety +
        clamp01 (1 - (resourceSumG tasks : ℚ) / 30) * w.sustainment +
        clamp01 (1 - (resourceSumG tasks : ℚ) / 30) * w.cost +
        clamp01 (1 - (depCount tasks : ℚ) / 20) * w.simplicity) = 1
    rw [h1, h2, h3, h4]
    norm_num [hcl1]
    exact hone _ hwsum
  · show clamp01 (clamp01 (1 - totalHoursE tasks / 72) * w.speed +
        clamp01 (1 - (riskCount tasks : ℚ) / 12) * w.safety +
        clamp01 (1 - (resourceSumE tasks : ℚ) / 30) * w.sustainment +
        clamp01 (1 - (resourceSumE tasks : ℚ) / 30) * w.cost +
        clamp01 (1 - (depCount tasks : ℚ) / 20) * w.simplicity) = 1
    rw [h5, h2, h6, h4]
    norm_num [hcl1]
    exact hone _ hwsum

/-- Witness for C6's amended theorem: the empty task set with the default
weights (which sum to exactly 1). -/
theorem score_saturates_to_one_witness :
    (0 : ℚ) ≤ defaultWeights.speed ∧ (0 : ℚ) ≤ defaultWeights.safety ∧
    (0 : ℚ) ≤ defaultWeights.sustainment ∧ (0 : ℚ) ≤ defaultWeights.cost ∧
    (0 : ℚ) ≤ defaultWeights.simplicity ∧
    1 ≤ defaultWeights.speed + defaultWeights.safety + defaultWeights.sustainment +
      defaultWeights.cost + defaultWeights.simplicity ∧
    totalHoursG [] = 0 ∧ riskCount [] = 0 ∧ resourceSumG [] = 0 ∧ depCount [] = 0 ∧
    totalHoursE [] = 0 ∧ resourceSumE [] = 0 ∧
    ((scoreG [] defaultWeights).composite = 1 ∧ (scoreE [] defaultWeights).composite = 1) := by
  refine ⟨by norm_num [defaultWeights], by norm_num [defaultWeights],
    by norm_num [defaultWeights], by norm_num [defaultWeights],
    by norm_num [defaultWeights], by norm_num [defaultWeights],
    rfl, rfl, rfl, rfl, rfl, rfl, ?_⟩
  exact score_saturates_to_one [] defaultWeights
    (by norm_num [defaultWeights]) (by norm_num [defaultWeights])
    (by norm_num [defaultWeights]) (by norm_num [defaultWeights])
    (by norm_num [defaultWeights]) (by norm_num [defaultWeights])
    rfl rfl rfl rfl rfl rfl

/-- C9 (counterexample): with a missing/unparseable reference instant the
schedule depends on the wall clock read inside `_schedule` (coa_generator.py
line 46): the same task set scheduled at ambient instants 0 and 3600000
yields different outputs. -/
theorem schedule_depends_on_ambient_clock :
    scheduleG exPlainTasks none 0 ≠ scheduleG exPlainTasks none 3600000 := by decide

/-- C9 (amended): whenever the caller-supplied reference instant parses, the
ambient wall-clock value read on coa_generator.py line 46 is discarded, and
the schedule is a deterministic function of the task set and that instant. -/
theorem schedule_deterministic_of_parseable (tasks : List Task) (now a b : Int) :
    scheduleG tasks (some now) a = scheduleG tasks (some now) b := rfl

/-- C10: on every task set whose tasks all carry an explicit positive
`duration_hours` and only non-negative resource quantities, and for matching
weight values, the scorer of coa_generator.py and the scorer of
enhanced_coa.py agree on all five sub-scores and on the composite. -/
theorem scorers_agree (tasks : List Task) (w : Weights)
    (hdur : ∀ t ∈ tasks, ∃ d, t.duration_hours = some d ∧ 0 < d)
    (hres : ∀ t ∈ tasks, ∀ p ∈ t.resources, 0 ≤ p.2) :
    scoreG tasks w = scoreE tasks w := by
  have hH : totalHoursG tasks = totalHoursE tasks := by
    unfold totalHoursG totalHoursE
    congr 1
    apply List.map_congr_left
    intro t ht
    obtain ⟨d, hd, hpos⟩ := hdur t ht
    simp [effDuration, hd, hpos.ne']
  have hR : resourceSumG tasks = resourceSumE tasks := by
    unfold resourceSumG resourceSumE
    congr 1
    apply List.map_congr_left
    intro t ht
    congr 1
    apply List.map_congr_left
    intro p hp
    exact (max_eq_right (hres t ht p hp)).symm
  unfold scoreG scoreE
  rw [hH, hR]

/-- Witness for C10 at a concrete input: one task with duration 2 and a
resource allocation of 3 units. -/
theorem scorers_agree_witness :
    (∀ t ∈ [Task.mk "A" [] (some 2) none [] [("r", 3)]],
      ∃ d, t.duration_hours = some d ∧ 0 < d) ∧
    (∀ t ∈ [Task.mk "A" [] (some 2) none [] [("r", 3)]], ∀ p ∈ t.resources, 0 ≤ p.2) ∧
    scoreG [Task.mk "A" [] (some 2) none [] [("r", 3)]] defaultWeights =
      scoreE [Task.mk "A" [] (some 2) none [] [("r", 3)]] defaultWeights := by
  have h1 : ∀ t ∈ [Task.mk "A" [] (some 2) none [] [("r", 3)]],
      ∃ d, t.duration_hours = some d ∧ 0 < d := by
    intro t ht
    simp only [List.mem_singleton] at ht
    subst ht
    exact ⟨2, rfl, by norm_num⟩
  have h2 : ∀ t ∈ [Task.mk "A" [] (some 2) none [] [("r", 3)]],
      ∀ p ∈ t.resources, 0 ≤ p.2 := by
    intro t ht p hp
    simp only [List.mem_singleton] at ht
    subst ht
    simp only [List.mem_singleton] at hp
    subst hp
    norm_num
  exact ⟨h1, h2, scorers_agree _ defaultWeights h1 h2⟩

@[simp]
lemma idsOf_nil : idsOf [] = [] := rfl

@[simp]
lemma idsOf_cons (t : Task) (ts : List Task) : idsOf (t :: ts) = t.id :: idsOf ts := rfl

lemma mem_idsOf {tasks : List Task} {x : String} :
    x ∈ idsOf tasks ↔ ∃ t ∈ tasks, t.id = x := by
  simp [idsOf, List.mem_map]

lemma addLoop_apply (l : List String) (f : String → Int) (k x : String) :
    l.foldl (fun f2 _ => updateF f2 k (f2 k + 1)) f x =
      f x + if x = k then (l.length : Int) else 0 := by
  induction l generalizing f with
  | nil => simp
  | cons c cs ih =>
      rw [List.foldl_cons, ih]
      by_cases h : x = k
      · subst h
        simp only [updateF, if_pos rfl, List.length_cons]
        push_cast
        ring
      · simp [updateF, h]

lemma buildIndeg_apply (tasks : List Task) (x : String) :
    buildIndeg tasks x =
      (tasks.map (fun t => if t.id = x then (t.dependencies.length : Int) else 0)).sum := by
  have key : ∀ (ts : List Task) (f : String → Int),
      ts.foldl
          (fun f t => t.dependencies.foldl (fun f2 _ => updateF f2 t.id (f2 t.id + 1)) f) f x =
        f x + (ts.map (fun t => if t.id = x then (t.dependencies.length : Int) else 0)).sum := by
    intro ts
    induction ts with
    | nil => intro f; simp
    | cons t ts ih =>
        intro f
        rw [List.foldl_cons, ih, addLoop_apply]
        by_cases h : t.id = x
        · simp only [List.map_cons, List.sum_cons, h, eq_self_iff_true, if_true]
          ring
        · have hx : ¬(x = t.id) := fun he => h he.symm
          simp [h, hx]
  have := key tasks (fun _ => 0)
  simpa [buildIndeg] using this

lemma appendLoop_apply (l : List String) (g : String → List String) (i x : String) :
    l.foldl (fun g2 d => updateG g2 d (g2 d ++ [i])) g x =
      g x ++ List.replicate (l.count x) i := by
  induction l generalizing g with
  | nil => simp
  | cons c cs ih =>
      rw [List.foldl_cons, ih]
      by_cases h : x = c
      · subst h
        simp [updateG, List.count_cons, List.replicate_succ, List.append_assoc]
      · have hcx : ¬(c = x) := fun he => h he.symm
        simp [updateG, h, hcx, List.count_cons]

lemma buildG_apply (tasks : List Task) (x : String) :
    buildG tasks x =
      (tasks.map (fun t => List.replicate (t.dependencies.count x) t.id)).flatten := by
  have key : ∀ (ts : List Task) (g : String → List String),
      ts.foldl
          (fun g t => t.dependencies.foldl (fun g2 d => updateG g2 d (g2 d ++ [t.id])) g) g x =
        g x ++ (ts.map (fun t => List.replicate (t.dependencies.count x) t.id)).flatten := by
    intro ts
    induction ts with
    | nil => intro g; simp
    | cons t ts ih =>
        intro g
        rw [List.foldl_cons, ih, appendLoop_apply]
        simp [List.append_assoc]
  have := key tasks (fun _ => [])
  simpa [buildG] using this

lemma sum_map_of_unique {M : Type} [AddCommMonoid M] :
    ∀ (tasks : List Task), UniqueIds tasks → ∀ t ∈ tasks, ∀ f : Task → M,
      (∀ s ∈ tasks, s.id ≠ t.id → f s = 0) → (tasks.map f).sum = f t
  | [], _, t, ht, _, _ => absurd ht (List.not_mem_nil t)
  | s :: ss, hu, t, ht, f, hz => by
      have hu1 : s.id ∉ idsOf ss ∧ (idsOf ss).Nodup := by
        rw [UniqueIds, idsOf_cons, List.nodup_cons] at hu
        exact hu
      rcases List.mem_cons.mp ht with rfl | hts
      · have hz0 : ∀ x ∈ ss.map f, x = 0 := by
          intro x hx
          rcases List.mem_map.mp hx with ⟨u, hu', rfl⟩
          refine hz u (List.mem_cons_of_mem _ hu') ?_
          intro he
          exact hu1.1 (by rw [← he]; exact List.mem_map_of_mem _ hu')
        rw [List.map_cons, List.sum_cons, List.sum_eq_zero hz0, add_zero]
      · have hs0 : f s = 0 := by
          refine hz s (List.mem_cons_self _ _) ?_
          intro he
          exact hu1.1 (by rw [he]; exact List.mem_map_of_mem _ hts)
        rw [List.map_cons, List.sum_cons, hs0, zero_add]
        exact sum_map_of_unique ss hu1.2 t hts f
          (fun u hu' hne => hz u (List.mem_cons_of_mem _ hu') hne)

lemma buildIndeg_of_unique {tasks : List Task} (hu : UniqueIds tasks) {t : Task}
    (ht : t ∈ tasks) : buildIndeg tasks t.id = (t.dependencies.length : Int) := by
  rw [buildIndeg_apply]
  rw [sum_map_of_unique tasks hu t ht _ ?_]
  · simp
  · intro s hs hne
    simp [hne]

lemma buildG_count_of_unique {tasks : List Task} (hu : UniqueIds tasks) {t : Task}
    (ht : t ∈ tasks) (v : String) :
    (buildG tasks v).count t.id = t.dependencies.count v := by
  rw [buildG_apply, List.count_flatten, List.map_map]
  rw [sum_map_of_unique tasks hu t ht _ ?_]
  · simp [List.count_replicate]
  · intro s hs hne
    simp [Function.comp, List.count_replicate, hne]

lemma mem_buildG {tasks : List Task} {x y : String} (h : y ∈ buildG tasks x) :
    ∃ t ∈ tasks, t.id = y ∧ x ∈ t.dependencies := by
  rw [buildG_apply, List.mem_flatten] at h
  rcases h with ⟨l, hl, hyl⟩
  rcases List.mem_map.mp hl with ⟨t, ht, rfl⟩
  rw [List.mem_replicate] at hyl
  refine ⟨t, ht, hyl.2.symm, ?_⟩
  rw [← List.count_pos_iff]
  have := hyl.1
  omega

lemma id_inj_of_unique {tasks : List Task} (hu : UniqueIds tasks) {t1 t2 : Task}
    (h1 : t1 ∈ tasks) (h2 : t2 ∈ tasks) (he : t1.id = t2.id) : t1 = t2 :=
  List.inj_on_of_nodup_map hu h1 h2 he

lemma taskMap_apply_of_not_mem :
    ∀ (tasks : List Task) (f : String → Option Task) (x : String), x ∉ idsOf tasks →
      tasks.foldl (fun f t => fun y => if y = t.id then some t else f y) f x = f x
  | [], _, _, _ => rfl
  | t :: ts, f, x, hx => by
      have hx1 : ¬(x = t.id) := by
        intro he
        exact hx (by rw [idsOf_cons, he]; exact List.mem_cons_self _ _)
      have hx2 : x ∉ idsOf ts := by
        intro hm
        exact hx (by rw [idsOf_cons]; exact List.mem_cons_of_mem _ hm)
      rw [List.foldl_cons, taskMap_apply_of_not_mem ts _ x hx2]
      simp [hx1]

lemma taskMap_of_unique :
    ∀ (tasks : List Task), UniqueIds tasks → ∀ t ∈ tasks, taskMap tasks t.id = some t := by
  have aux : ∀ (tasks : List Task) (f : String → Option Task), UniqueIds tasks →
      ∀ t ∈ tasks,
        tasks.foldl (fun f t => fun y => if y = t.id then some t else f y) f t.id = some t := by
    intro tasks
    induction tasks with
    | nil => intro f _ t ht; exact absurd ht (List.not_mem_nil t)
    | cons s ss ih =>
        intro f hu t ht
        have hu1 : s.id ∉ idsOf ss ∧ (idsOf ss).Nodup := by
          rw [UniqueIds, idsOf_cons, List.nodup_cons] at hu
          exact hu
        rcases List.mem_cons.mp ht with rfl | hts
        · rw [List.foldl_cons, taskMap_apply_of_not_mem ss _ t.id hu1.1]
          simp
        · rw [List.foldl_cons]
          exact ih _ hu1.2 t hts
  intro tasks hu t ht
  exact aux tasks (fun _ => none) hu t ht

lemma unfired_append (t : Task) (out : List String) (v : String) (hv : v ∉ out) :
    unfired t out = unfired t (out ++ [v]) + t.dependencies.count v := by
  unfold unfired
  generalize t.dependencies = l
  induction l with
  | nil => simp
  | cons c cs ih =>
      by_cases hc : c = v
      · subst hc
        have h2 : ¬(c ∉ out ++ [c]) := by simp
        rw [List.filter_cons_of_pos (by simpa using hv),
          List.filter_cons_of_neg (by simpa using h2),
          List.count_cons, if_pos (by simp), List.length_cons, ih]
        omega
      · have hbeq : ¬((c == v) = true) := by simp [hc]
        by_cases hco : c ∈ out
        · have h1 : ¬(c ∉ out) := by simp [hco]
          have h2 : ¬(c ∉ out ++ [v]) := by simp [hco]
          rw [List.filter_cons_of_neg (by simpa using h1),
            List.filter_cons_of_neg (by simpa using h2),
            List.count_cons, if_neg hbeq, ih]
          omega
        · have h2 : c ∉ out ++ [v] := by simp [hco, hc]
          rw [List.filter_cons_of_pos (by simpa using hco),
            List.filter_cons_of_pos (by simpa using h2),
            List.count_cons, if_neg hbeq, List.length_cons, List.length_cons, ih]
          omega

lemma processEdges_spec (targets : List String) (ind : String → Int) (q : List String) :
    ∃ app : List String,
      (processEdges targets ind q).1 = (fun x => ind x - (targets.count x : Int)) ∧
      (processEdges targets ind q).2 = q ++ app ∧
      app.Nodup ∧
      (∀ x, x ∈ app ↔ 0 < ind x ∧ ind x ≤ (targets.count x : Int)) := by
  induction targets generalizing ind q with
  | nil =>
      refine ⟨[], ?_, by simp [processEdges], List.nodup_nil, ?_⟩
      · funext x
        simp [processEdges]
      · intro x
        simp only [List.not_mem_nil, false_iff, List.count_nil, Nat.cast_zero]
        omega
  | cons e es ih =>
      have hstep : processEdges (e :: es) ind q =
          processEdges es (updateF ind e (ind e - 1))
            (if ind e - 1 = 0 then q ++ [e] else q) := by
        by_cases hc : ind e - 1 = 0 <;>
          simp [processEdges, updateF, hc]
      obtain ⟨app1, h1, h2, hnd1, hm1⟩ := ih (updateF ind e (ind e - 1))
        (if ind e - 1 = 0 then q ++ [e] else q)
      have hcnt : ∀ x, (e :: es).count x = es.count x + if x = e then 1 else 0 := by
        intro x
        rw [List.count_cons]
        by_cases hx : x = e
        · subst hx
          simp
        · have hex : ¬(e = x) := fun he => hx he.symm
          simp [hx, hex]
      refine ⟨(if ind e = 1 then [e] else []) ++ app1, ?_, ?_, ?_, ?_⟩
      · rw [hstep, h1]
        funext x
        by_cases hx : x = e
        · subst hx
          simp only [updateF, if_pos rfl, hcnt]
          push_cast
          ring
        · simp only [updateF, if_neg hx, hcnt, if_neg hx]
          push_cast
          ring
      · rw [hstep, h2]
        by_cases hc : ind e = 1
        · have hz : ind e - 1 = 0 := by omega
          simp [hc, hz, List.append_assoc]
        · have hz : ¬(ind e - 1 = 0) := by omega
          simp [hc, hz]
      · by_cases hc : ind e = 1
        · rw [if_pos hc, List.singleton_append, List.nodup_cons]
          refine ⟨?_, hnd1⟩
          intro hmem
          have h := (hm1 e).mp hmem
          simp [updateF, hc] at h
        · rw [if_neg hc, List.nil_append]
          exact hnd1
      · intro x
        have hm := hm1 x
        have hindx : (updateF ind e (ind e - 1)) x = if x = e then ind e - 1 else ind x := rfl
        constructor
        · intro hmem
          rcases List.mem_append.mp hmem with hml | hmr
          · have hc : ind e = 1 ∧ x = e := by
              by_cases hc : ind e = 1
              · rw [if_pos hc] at hml
                exact ⟨hc, List.mem_singleton.mp hml⟩
              · rw [if_neg hc] at hml
                exact absurd hml (List.not_mem_nil x)
            obtain ⟨hc1, rfl⟩ := hc
            rw [hcnt]
            simp only [if_pos rfl]
            push_cast
            omega
          · have h := hm.mp hmr
            rw [hindx] at h
            rw [hcnt]
            by_cases hx : x = e
            · subst hx
              rw [if_pos rfl] at h
              rw [if_pos rfl]
              push_cast
              omega
            · rw [if_neg hx] at h
              rw [if_neg hx]
              push_cast
              omega
        · intro hcond
          rw [hcnt] at hcond
          by_cases hx : x = e
          · rw [if_pos hx] at hcond
            subst hx
            by_cases hc : ind x = 1
            · refine List.mem_append.mpr (Or.inl ?_)
              rw [if_pos hc]
              exact List.mem_singleton.mpr rfl
            · refine List.mem_append.mpr (Or.inr (hm.mpr ?_))
              rw [hindx, if_pos rfl]
              push_cast at hcond
              constructor <;> omega
          · rw [if_neg hx] at hcond
            refine List.mem_append.mpr (Or.inr (hm.mpr ?_))
            rw [hindx, if_neg hx]
            push_cast at hcond
            constructor <;> omega

lemma le_foldl_max : ∀ (l : List Int) (a b : Int), a ≤ b → a ≤ l.foldl max b
  | [], _, _, h => h
  | c :: cs, a, b, h => le_foldl_max cs a (max b c) (le_trans h (le_max_left b c))

lemma mem_le_foldl_max : ∀ (l : List Int) (a b : Int), a ∈ l → a ≤ l.foldl max b
  | [], a, _, h => absurd h (List.not_mem_nil a)
  | c :: cs, a, b, h => by
      rcases List.mem_cons.mp h with rfl | hm
      · exact le_foldl_max cs a (max b a) (le_max_right b a)
      · exact mem_le_foldl_max cs a (max b c) hm

lemma maxWithDefault_ge_mem (dflt : Int) (l : List Int) (a : Int) (ha : a ∈ l) :
    a ≤ maxWithDefault dflt l := by
  cases l with
  | nil => cases ha
  | cons e es =>
      rw [maxWithDefault]
      rcases List.mem_cons.mp ha with rfl | hmem
      · exact le_foldl_max es a a le_rfl
      · exact mem_le_foldl_max es a e hmem

lemma kahnLoop_prefix (g : String → List String) :
    ∀ (fuel : Nat) (ind : String → Int) (q out : List String),
      ∃ tl, kahnLoop g fuel ind q out = out ++ tl
  | fuel, _, [], out => ⟨[], by cases fuel <;> simp [kahnLoop]⟩
  | 0, _, _ :: _, out => ⟨[], by simp [kahnLoop]⟩
  | fuel + 1, ind, v :: rest, out => by
      obtain ⟨tl, htl⟩ := kahnLoop_prefix g fuel (processEdges (g v) ind rest).1
        (processEdges (g v) ind rest).2 (out ++ [v])
      refine ⟨v :: tl, ?_⟩
      rw [kahnLoop]
      rw [htl]
      simp

lemma filter_of_find?_eq_some :
    ∀ (l : List Task) (p : Task → Bool) (a : Task), l.find? p = some a →
      ∃ tl, l.filter p = a :: tl
  | [], p, a, h => by simp [List.find?] at h
  | s :: ss, p, a, h => by
      by_cases hp : p s
      · rw [List.find?_cons_of_pos _ hp] at h
        injection h with h
        subst h
        exact ⟨ss.filter p, by rw [List.filter_cons_of_pos hp]⟩
      · rw [List.find?_cons_of_neg _ hp] at h
        obtain ⟨tl, htl⟩ := filter_of_find?_eq_some ss p a h
        exact ⟨tl, by rw [List.filter_cons_of_neg hp, htl]⟩

lemma unfired_eq_zero_iff (t : Task) (out : List String) :
    unfired t out = 0 ↔ ∀ d ∈ t.dependencies, d ∈ out := by
  unfold unfired
  simp [List.length_eq_zero, List.filter_eq_nil_iff]

lemma snoc_eq_append_cons :
    ∀ (l : List String) (a : String) (l1 : List String) (x : String) (l2 : List String),
      l ++ [a] = l1 ++ x :: l2 →
      (l1 = l ∧ x = a ∧ l2 = []) ∨ ∃ l2', l = l1 ++ x :: l2' ∧ l2 = l2' ++ [a] := by
  intro l a l1
  induction l1 generalizing l with
  | nil =>
      intro x l2 h
      cases l with
      | nil =>
          simp only [List.nil_append] at h
          injection h with h1 h2
          exact Or.inl ⟨rfl, h1.symm, h2.symm⟩
      | cons y l' =>
          rw [List.cons_append, List.nil_append] at h
          injection h with h1 h2
          exact Or.inr ⟨l', by rw [h1]; rfl, h2.symm⟩
  | cons b l1' ih =>
      intro x l2 h
      cases l with
      | nil =>
          rw [List.nil_append, List.cons_append] at h
          injection h with h1 h2
          rcases List.append_eq_nil.mp h2.symm with ⟨_, h4⟩
          exact absurd h4 (List.cons_ne_nil x l2)
      | cons y l' =>
          rw [List.cons_append, List.cons_append] at h
          injection h with h1 h2
          rcases ih l' x l2 h2 with ⟨ha, hb, hc⟩ | ⟨l2', hl, hl2⟩
          · exact Or.inl ⟨by rw [h1, ha], hb, hc⟩
          · exact Or.inr ⟨l2', by rw [List.cons_append, ← hl, h1], hl2⟩

lemma nodup_subset_length {l m : List String} (h : l.Nodup) (hs : ∀ x ∈ l, x ∈ m) :
    l.length ≤ m.length := by
  classical
  calc l.length = l.toFinset.card := (List.toFinset_card_of_nodup h).symm
    _ ≤ m.toFinset.card :=
        Finset.card_le_card (fun x hx => List.mem_toFinset.mpr (hs x (List.mem_toFinset.mp hx)))
    _ ≤ m.length := List.toFinset_card_le m

lemma kahnStep_inv {tasks : List Task} (hu : UniqueIds tasks) {ind : String → Int}
    {v : String} {rest out : List String} (hinv : KInv tasks ind (v :: rest) out) :
    KInv tasks (processEdges (buildG tasks v) ind rest).1
      (processEdges (buildG tasks v) ind rest).2 (out ++ [v]) := by
  obtain ⟨app, hp1, hp2, hand, hamem⟩ := processEdges_spec (buildG tasks v) ind rest
  have hvq : v ∈ out ++ v :: rest := by simp
  have hvid : v ∈ idsOf tasks := hinv.sub v hvq
  have hvout : v ∉ out := by
    have hnd := hinv.nodup
    rw [List.nodup_append] at hnd
    exact fun hvo => hnd.2.2 hvo (List.mem_cons_self _ _)
  have hvdeps : ∀ t ∈ tasks, t.id = v → ∀ d ∈ t.dependencies, d ∈ out := by
    intro t ht hid
    exact (hinv.ready t ht).mp (by rw [hid]; exact hvq)
  have hdeg : ∀ t ∈ tasks, (processEdges (buildG tasks v) ind rest).1 t.id =
      (unfired t (out ++ [v]) : Int) := by
    intro t ht
    rw [hp1]
    show ind t.id - ((buildG tasks v).count t.id : Int) = (unfired t (out ++ [v]) : Int)
    have hsplit := unfired_append t out v hvout
    have hdg := hinv.deg t ht
    rw [hdg, buildG_count_of_unique hu ht v]
    omega
  have happ_mem : ∀ x ∈ app, ∃ t ∈ tasks, t.id = x ∧ 0 < ind x ∧ x ∉ out ++ v :: rest := by
    intro x hx
    have hm := (hamem x).mp hx
    have hxg : x ∈ buildG tasks v := by
      rw [← List.count_pos_iff]
      have h2 : (0 : Int) < ((buildG tasks v).count x : Int) := lt_of_lt_of_le hm.1 hm.2
      exact_mod_cast h2
    obtain ⟨t, ht, hid, hdep⟩ := mem_buildG hxg
    refine ⟨t, ht, hid, hm.1, ?_⟩
    intro hmem
    have hready := (hinv.ready t ht).mp (by rw [hid]; exact hmem)
    have h0 : unfired t out = 0 := (unfired_eq_zero_iff t out).mpr hready
    have hdg := hinv.deg t ht
    rw [hid] at hdg
    have hm1 := hm.1
    rw [hdg, h0] at hm1
    simp at hm1
  refine ⟨?_, ?_, hdeg, ?_, ?_⟩
  · rw [hp2]
    have heq : (out ++ [v]) ++ (rest ++ app) = (out ++ v :: rest) ++ app := by simp
    rw [heq, List.nodup_append]
    refine ⟨hinv.nodup, hand, ?_⟩
    intro a ha hain
    obtain ⟨t, ht, hid, hpos, hnot⟩ := happ_mem a hain
    exact hnot ha
  · rw [hp2]
    intro x hx
    rcases List.mem_append.mp hx with h1 | h2
    · rcases List.mem_append.mp h1 with h3 | h4
      · exact hinv.sub x (List.mem_append.mpr (Or.inl h3))
      · rw [List.mem_singleton] at h4
        subst h4
        exact hvid
    · rcases List.mem_append.mp h2 with h3 | h4
      · exact hinv.sub x (by simp [h3])
      · obtain ⟨t, ht, hid, _, _⟩ := happ_mem x h4
        rw [← hid]
        exact List.mem_map_of_mem _ ht
  · intro t ht
    rw [hp2]
    constructor
    · intro hmem
      rcases List.mem_append.mp hmem with h1 | h2
      · rcases List.mem_append.mp h1 with h3 | h4
        · have hr := (hinv.ready t ht).mp (List.mem_append.mpr (Or.inl h3))
          intro d hd
          exact List.mem_append.mpr (Or.inl (hr d hd))
        · rw [List.mem_singleton] at h4
          have hr := hvdeps t ht h4
          intro d hd
          exact List.mem_append.mpr (Or.inl (hr d hd))
      · rcases List.mem_append.mp h2 with h3 | h4
        · have hr := (hinv.ready t ht).mp (by simp [h3])
          intro d hd
          exact List.mem_append.mpr (Or.inl (hr d hd))
        · have hm := (hamem t.id).mp h4
          have hdg := hinv.deg t ht
          have hcnt := buildG_count_of_unique hu ht v
          have hsplit := unfired_append t out v hvout
          have h0 : unfired t (out ++ [v]) = 0 := by
            have hm2 := hm.2
            rw [hdg, hcnt] at hm2
            omega
          exact (unfired_eq_zero_iff t _).mp h0
    · intro hall
      by_cases hin : t.id ∈ out ++ v :: rest
      · rcases List.mem_append.mp hin with h3 | h4
        · exact List.mem_append.mpr (Or.inl (List.mem_append.mpr (Or.inl h3)))
        · rcases List.mem_cons.mp h4 with h5 | h6
          · exact List.mem_append.mpr (Or.inl (by simp [h5]))
          · exact List.mem_append.mpr (Or.inr (List.mem_append.mpr (Or.inl h6)))
      · refine List.mem_append.mpr (Or.inr (List.mem_append.mpr (Or.inr ?_)))
        apply (hamem t.id).mpr
        have hnotall : ¬(∀ d ∈ t.dependencies, d ∈ out) := by
          intro hthen
          exact hin ((hinv.ready t ht).mpr hthen)
        have hupos : 0 < unfired t out := by
          rcases Nat.eq_zero_or_pos (unfired t out) with h0 | hp
          · exact absurd ((unfired_eq_zero_iff t out).mp h0) hnotall
          · exact hp
        have h0' : unfired t (out ++ [v]) = 0 := (unfired_eq_zero_iff t _).mpr hall
        have hsplit := unfired_append t out v hvout
        have hdg := hinv.deg t ht
        constructor
        · rw [hdg]
          exact_mod_cast hupos
        · rw [hdg, buildG_count_of_unique hu ht v]
          omega
  · intro l1 x l2 hdecomp t ht hid d hd
    rcases snoc_eq_append_cons out v l1 x l2 hdecomp with ⟨h1, h2, _⟩ | ⟨l2', hl, _⟩
    · rw [h1]
      exact hvdeps t ht (by rw [hid, h2]) d hd
    · exact hinv.ord l1 x l2' hl t ht hid d hd

lemma kahnLoop_inv {tasks : List Task} (hu : UniqueIds tasks) :
    ∀ (fuel : Nat) (ind : String → Int) (q out : List String),
      KInv tasks ind q out → tasks.length ≤ fuel + out.length →
      ∃ outF indF, kahnLoop (buildG tasks) fuel ind q out = outF ∧ KInv tasks indF [] outF := by
  intro fuel
  induction fuel with
  | zero =>
      intro ind q out hinv hlen
      cases q with
      | nil => exact ⟨out, ind, by simp [kahnLoop], hinv⟩
      | cons v rest =>
          exfalso
          have hbound : (out ++ v :: rest).length ≤ (idsOf tasks).length :=
            nodup_subset_length hinv.nodup hinv.sub
          have hids : (idsOf tasks).length = tasks.length := by simp [idsOf]
          rw [hids, List.length_append, List.length_cons] at hbound
          omega
  | succ fuel ih =>
      intro ind q out hinv hlen
      cases q with
      | nil => exact ⟨out, ind, by simp [kahnLoop], hinv⟩
      | cons v rest =>
          have hstep := kahnStep_inv hu hinv
          obtain ⟨outF, indF, heq, hfin⟩ := ih _ _ _ hstep
            (by rw [List.length_append, List.length_singleton]; omega)
          refine ⟨outF, indF, ?_, hfin⟩
          rw [kahnLoop]
          exact heq

lemma kahnInit {tasks : List Task} (hu : UniqueIds tasks) :
    KInv tasks (buildIndeg tasks)
      ((tasks.filter (fun t => buildIndeg tasks t.id = 0)).map (fun t => t.id)) [] := by
  refine ⟨?_, ?_, ?_, ?_, ?_⟩
  · simp only [List.nil_append]
    have hsub : ((tasks.filter (fun t => buildIndeg tasks t.id = 0)).map
        (fun t => t.id)).Sublist (idsOf tasks) := (List.filter_sublist tasks).map _
    exact hu.sublist hsub
  · intro x hx
    simp only [List.nil_append] at hx
    rcases List.mem_map.mp hx with ⟨t, ht, rfl⟩
    exact List.mem_map_of_mem _ (List.mem_of_mem_filter ht)
  · intro t ht
    have h1 : unfired t [] = t.dependencies.length := by simp [unfired]
    rw [h1, buildIndeg_of_unique hu ht]
  · intro t ht
    simp only [List.nil_append]
    constructor
    · intro hmem d hd
      rcases List.mem_map.mp hmem with ⟨t1, ht1, hid⟩
      have ht1tasks := List.mem_of_mem_filter ht1
      have ht1p := List.of_mem_filter ht1
      have heq1 : t1 = t := id_inj_of_unique hu ht1tasks ht hid
      subst heq1
      have h0 : buildIndeg tasks t1.id = 0 := by simpa using ht1p
      rw [buildIndeg_of_unique hu ht] at h0
      have h2 : t1.dependencies.length = 0 := by exact_mod_cast h0
      rw [List.length_eq_zero] at h2
      rw [h2] at hd
      cases hd
    · intro hall
      have hdeps0 : t.dependencies = [] := by
        cases hde : t.dependencies with
        | nil => rfl
        | cons d ds =>
            exact absurd (hall d (by rw [hde]; exact List.mem_cons_self _ _))
              (List.not_mem_nil d)
      have hp : buildIndeg tasks t.id = 0 := by
        rw [buildIndeg_of_unique hu ht, hdeps0]
        simp
      exact List.mem_map_of_mem _ (List.mem_filter.mpr ⟨ht, by simpa using hp⟩)
  · intro l1 x l2 h
    exact absurd h.symm (by simp)

lemma kahn_final {tasks : List Task} (hu : UniqueIds tasks) :
    ∃ outF indF,
      kahnLoop (buildG tasks) (2 * tasks.length + 1) (buildIndeg tasks)
        ((tasks.filter (fun t => buildIndeg tasks t.id = 0)).map (fun t => t.id)) [] = outF ∧
      KInv tasks indF [] outF := by
  apply kahnLoop_inv hu _ _ _ _ (kahnInit hu)
  simp
  omega

lemma cycle_of_preds (S : Finset String) (hS : S.Nonempty) (R : String → String → Prop)
    (hpred : ∀ x ∈ S, ∃ y ∈ S, R y x) : ∃ x, Relation.TransGen R x x := by
  classical
  obtain ⟨x0, hx0⟩ := hS
  have hstep : ∀ p : {a // a ∈ S}, ∃ q : {a // a ∈ S}, R q.1 p.1 := by
    rintro ⟨x, hx⟩
    obtain ⟨y, hy, hr⟩ := hpred x hx
    exact ⟨⟨y, hy⟩, hr⟩
  choose f hf using hstep
  set g : ℕ → {a // a ∈ S} := fun n => f^[n] ⟨x0, hx0⟩ with hg
  have hgstep : ∀ n, R (g (n + 1)).1 (g n).1 := by
    intro n
    have h1 : g (n + 1) = f (g n) := by
      rw [hg]
      exact Function.iterate_succ_apply' f n _
    rw [h1]
    exact hf (g n)
  have hchain : ∀ i j, i < j → Relation.TransGen R (g j).1 (g i).1 := by
    intro i j hij
    induction hij with
    | refl => exact Relation.TransGen.single (hgstep i)
    | step _ ihstep => exact Relation.TransGen.head (hgstep _) ihstep
  obtain ⟨i, j, hij, hijeq⟩ := Finite.exists_ne_map_eq_of_infinite g
  rcases lt_or_gt_of_ne hij with h | h
  · refine ⟨(g j).1, ?_⟩
    have hc := hchain i j h
    rw [hijeq] at hc
    exact hc
  · refine ⟨(g i).1, ?_⟩
    have hc := hchain j i h
    rw [← hijeq] at hc
    exact hc

lemma emitted_all {tasks : List Task} (hdeps : DepsKnown tasks)
    (hacyc : Acyclic tasks) (outF : List String)
    (hclosure : ∀ t ∈ tasks, (∀ d ∈ t.dependencies, d ∈ outF) → t.id ∈ outF) :
    ∀ x ∈ idsOf tasks, x ∈ outF := by
  classical
  by_contra hnot
  push_neg at hnot
  obtain ⟨x0, hx0, hx0n⟩ := hnot
  set S : Finset String := (idsOf tasks).toFinset.filter (fun x => x ∉ outF) with hS
  have hS0 : x0 ∈ S := by
    rw [hS]
    exact Finset.mem_filter.mpr ⟨List.mem_toFinset.mpr hx0, hx0n⟩
  have hpred : ∀ x ∈ S, ∃ y ∈ S, DepEdge tasks y x := by
    intro x hx
    rw [hS, Finset.mem_filter] at hx
    obtain ⟨hxid, hxout⟩ := hx
    obtain ⟨t, ht, hid⟩ := mem_idsOf.mp (List.mem_toFinset.mp hxid)
    have hna : ¬(∀ d ∈ t.dependencies, d ∈ outF) := by
      intro hall
      exact hxout (hid ▸ hclosure t ht hall)
    push_neg at hna
    obtain ⟨d, hd, hdout⟩ := hna
    refine ⟨d, ?_, ⟨t, ht, hid, hd⟩⟩
    rw [hS, Finset.mem_filter]
    exact ⟨List.mem_toFinset.mpr (hdeps t ht d hd), hdout⟩
  obtain ⟨x, hx⟩ := cycle_of_preds S ⟨x0, hS0⟩ (DepEdge tasks) hpred
  exact hacyc x hx

lemma toposort_no_fallback {tasks : List Task} (hu : UniqueIds tasks)
    (hdeps : DepsKnown tasks) (hacyc : Acyclic tasks) :
    ∃ outF indF,
      kahnLoop (buildG tasks) (2 * tasks.length + 1) (buildIndeg tasks)
        ((tasks.filter (fun t => buildIndeg tasks t.id = 0)).map (fun t => t.id)) [] = outF ∧
      KInv tasks indF [] outF ∧ toposortIds tasks = outF := by
  obtain ⟨outF, indF, heq, hfin⟩ := kahn_final hu
  have hclosure : ∀ t ∈ tasks, (∀ d ∈ t.dependencies, d ∈ outF) → t.id ∈ outF := by
    intro t ht hall
    have h1 := (hfin.ready t ht).mpr hall
    simpa using h1
  have hnodup : outF.Nodup := by
    have h1 := hfin.nodup
    simpa using h1
  have hsub : ∀ x ∈ outF, x ∈ idsOf tasks := by
    intro x hx
    exact hfin.sub x (by simpa using hx)
  have hall := emitted_all hdeps hacyc outF hclosure
  have hperm : outF.Perm (idsOf tasks) :=
    (List.perm_ext_iff_of_nodup hnodup hu).mpr
      (fun a => ⟨fun h => hsub a h, fun h => hall a h⟩)
  have hlen : outF.length = tasks.length := by
    have h1 := hperm.length_eq
    simpa [idsOf] using h1
  have htopo : toposortIds tasks = outF := by
    simp only [toposortIds]
    rw [heq, if_pos hlen]
  exact ⟨outF, indF, heq, hfin, htopo⟩

lemma toposort_machinery {tasks : List Task} (hu : UniqueIds tasks)
    (hdeps : DepsKnown tasks) (hacyc : Acyclic tasks) :
    (toposortIds tasks).Perm (idsOf tasks) ∧ (toposortIds tasks).Nodup ∧
    (∀ l1 x l2, toposortIds tasks = l1 ++ x :: l2 → ∀ t ∈ tasks, t.id = x →
      ∀ d ∈ t.dependencies, d ∈ l1) := by
  obtain ⟨outF, indF, _, hfin, htopo⟩ := toposort_no_fallback hu hdeps hacyc
  have hclosure : ∀ t ∈ tasks, (∀ d ∈ t.dependencies, d ∈ outF) → t.id ∈ outF := by
    intro t ht hall
    have h1 := (hfin.ready t ht).mpr hall
    simpa using h1
  have hnodup : outF.Nodup := by
    have h1 := hfin.nodup
    simpa using h1
  have hsub : ∀ x ∈ outF, x ∈ idsOf tasks := by
    intro x hx
    exact hfin.sub x (by simpa using hx)
  have hall := emitted_all hdeps hacyc outF hclosure
  have hperm : outF.Perm (idsOf tasks) :=
    (List.perm_ext_iff_of_nodup hnodup hu).mpr
      (fun a => ⟨fun h => hsub a h, fun h => hall a h⟩)
  rw [htopo]
  exact ⟨hperm, hnodup, fun l1 x l2 hdec => hfin.ord l1 x l2 hdec⟩

/-- A ranking witness implies acyclicity: if some rank strictly increases
along every dependency edge, the graph has no cycle. -/
lemma acyclic_of_rank {tasks : List Task} (rank : String → Nat)
    (h : ∀ a b, DepEdge tasks a b → rank a < rank b) : Acyclic tasks := by
  intro x hx
  have hmono : ∀ a b, Relation.TransGen (DepEdge tasks) a b → rank a < rank b := by
    intro a b hab
    induction hab with
    | single he => exact h _ _ he
    | tail _ he ihs => exact lt_trans ihs (h _ _ he)
  exact lt_irrefl _ (hmono x x hx)

lemma exThree_acyclic : Acyclic exThreeTasks := by
  apply acyclic_of_rank (fun x => if x = "T1" then 0 else if x = "T2" then 1 else 2)
  rintro a b ⟨t, ht, hid, hd⟩
  simp only [exThreeTasks, mkTask, List.mem_cons, List.not_mem_nil, or_false] at ht
  subst hid
  rcases ht with h | h | h <;> subst h <;>
    simp only [mkTask, List.mem_cons, List.not_mem_nil, or_false] at hd
  · subst hd
    decide
  · rcases hd with rfl | rfl <;> decide

lemma exScan_acyclic : Acyclic exScanTasks := by
  apply acyclic_of_rank (fun x => if x = "B" then 1 else 0)
  rintro a b ⟨t, ht, hid, hd⟩
  simp only [exScanTasks, mkTask, List.mem_cons, List.not_mem_nil, or_false] at ht
  subst hid
  rcases ht with h | h | h <;> subst h <;>
    simp only [mkTask, List.mem_cons, List.not_mem_nil, or_false] at hd
  · subst hd
    decide

/-- C2: for every well-formed acyclic task set (unique ids, dependencies
resolving within the set, no dependency cycle), `_toposort` emits every task
id exactly once — the output is a permutation of the declared ids with each
id counted once — and every task appears strictly after all of its declared
dependencies. -/
theorem toposort_correct (tasks : List Task) (hu : UniqueIds tasks)
    (hdeps : DepsKnown tasks) (hacyc : Acyclic tasks) :
    (toposortIds tasks).Perm (idsOf tasks) ∧
    (∀ x ∈ idsOf tasks, (toposortIds tasks).count x = 1) ∧
    ∀ t ∈ tasks, ∀ d ∈ t.dependencies,
      ∃ l1 l2, toposortIds tasks = l1 ++ t.id :: l2 ∧ d ∈ l1 := by
  obtain ⟨hperm, hnodup, hord⟩ := toposort_machinery hu hdeps hacyc
  refine ⟨hperm, ?_, ?_⟩
  · intro x hx
    rw [hperm.count_eq]
    exact List.count_eq_one_of_mem hu hx
  · intro t ht d hd
    have hmem : t.id ∈ toposortIds tasks :=
      hperm.mem_iff.mpr (List.mem_map_of_mem _ ht)
    obtain ⟨l1, l2, hdec⟩ := List.append_of_mem hmem
    exact ⟨l1, l2, hdec, hord l1 t.id l2 hdec t ht rfl d hd⟩

/-- Witness for C2 on the three-task scenario. -/
theorem toposort_correct_witness :
    UniqueIds exThreeTasks ∧ DepsKnown exThreeTasks ∧ Acyclic exThreeTasks ∧
    ((toposortIds exThreeTasks).Perm (idsOf exThreeTasks) ∧
      (∀ x ∈ idsOf exThreeTasks, (toposortIds exThreeTasks).count x = 1) ∧
      ∀ t ∈ exThreeTasks, ∀ d ∈ t.dependencies,
        ∃ l1 l2, toposortIds exThreeTasks = l1 ++ t.id :: l2 ∧ d ∈ l1) :=
  ⟨by decide, by decide, exThree_acyclic,
    toposort_correct exThreeTasks (by decide) (by decide) exThree_acyclic⟩

lemma indexOf_append_cons_self (l1 l2 : List String) (b : String) (hb : b ∉ l1) :
    (l1 ++ b :: l2).indexOf b = l1.length := by
  induction l1 with
  | nil => simp [List.indexOf_cons_eq]
  | cons c cs ih =>
      have hbc : c ≠ b := fun he => hb (by rw [he]; exact List.mem_cons_self _ _)
      rw [List.cons_append, List.indexOf_cons_ne _ hbc,
        ih (fun hm => hb (List.mem_cons_of_mem _ hm))]
      simp

lemma ord_no_cycle {tasks : List Task} (outF : List String) (hnodup : outF.Nodup)
    (hord : ∀ l1 x l2, outF = l1 ++ x :: l2 → ∀ t ∈ tasks, t.id = x →
      ∀ d ∈ t.dependencies, d ∈ l1) :
    ∀ a b, Relation.TransGen (DepEdge tasks) a b → b ∈ outF →
      a ∈ outF ∧ outF.indexOf a < outF.indexOf b := by
  have hedge : ∀ a b, DepEdge tasks a b → b ∈ outF →
      a ∈ outF ∧ outF.indexOf a < outF.indexOf b := by
    intro a b hab hb
    obtain ⟨l1, l2, hdec⟩ := List.append_of_mem hb
    obtain ⟨t, ht, hid, hd⟩ := hab
    have ha1 : a ∈ l1 := hord l1 b l2 hdec t ht hid a hd
    have hbnot : b ∉ l1 := by
      rw [hdec, List.nodup_append] at hnodup
      exact fun hmem => hnodup.2.2 hmem (List.mem_cons_self _ _)
    constructor
    · rw [hdec]
      exact List.mem_append.mpr (Or.inl ha1)
    · rw [hdec, List.indexOf_append_of_mem ha1, indexOf_append_cons_self l1 l2 b hbnot]
      exact List.indexOf_lt_length.mpr ha1
  intro a b hab
  induction hab with
  | single he => exact fun hb => hedge _ _ he hb
  | tail _ he ihs =>
      intro hc
      obtain ⟨hbmem, hlt⟩ := hedge _ _ he hc
      obtain ⟨hamem, hlt2⟩ := ihs hbmem
      exact ⟨hamem, lt_trans hlt2 hlt⟩

/-- C4: on every task set with unique ids whose dependency graph contains a
cycle, `_toposort` does not fail: the Kahn loop comes up short and the
function returns exactly the declared order of the task ids, of the same
length as the input. -/
theorem toposort_cycle_fallback (tasks : List Task) (hu : UniqueIds tasks)
    (hcyc : HasCycle tasks) :
    toposortIds tasks = tasks.map (fun t => t.id) ∧
    (toposortIds tasks).length = tasks.length := by
  obtain ⟨outF, indF, heq, hfin⟩ := kahn_final hu
  obtain ⟨x, hx⟩ := hcyc
  have hxid : x ∈ idsOf tasks := by
    have hedge : ∃ a, DepEdge tasks a x := by
      cases hx with
      | single he => exact ⟨_, he⟩
      | tail _ he => exact ⟨_, he⟩
    obtain ⟨a, t, ht, hid, _⟩ := hedge
    rw [← hid]
    exact List.mem_map_of_mem _ ht
  have hnodupF : outF.Nodup := by
    have h1 := hfin.nodup
    simpa using h1
  have hxnot : x ∉ outF := by
    intro hmem
    obtain ⟨_, hlt⟩ :=
      ord_no_cycle outF hnodupF (fun l1 y l2 hdec => hfin.ord l1 y l2 hdec) x x hx hmem
    exact lt_irrefl _ hlt
  have hsubF : ∀ y ∈ outF, y ∈ (idsOf tasks).erase x := by
    intro y hy
    have hyid : y ∈ idsOf tasks := hfin.sub y (by simpa using hy)
    have hyne : y ≠ x := fun he => hxnot (he ▸ hy)
    exact (List.mem_erase_of_ne hyne).mpr hyid
  have hlt : outF.length < tasks.length := by
    have hle : outF.length ≤ ((idsOf tasks).erase x).length :=
      nodup_subset_length hnodupF hsubF
    have herlen : ((idsOf tasks).erase x).length = (idsOf tasks).length - 1 :=
      List.length_erase_of_mem hxid
    have hids : (idsOf tasks).length = tasks.length := by simp [idsOf]
    have hpos : 0 < (idsOf tasks).length := List.length_pos_of_mem hxid
    omega
  have hne : ¬(outF.length = tasks.length) := by omega
  have htopo : toposortIds tasks = tasks.map (fun t => t.id) := by
    simp only [toposortIds]
    rw [heq, if_neg hne]
  exact ⟨htopo, by rw [htopo]; simp⟩

lemma exCycle_hasCycle : HasCycle exCycleTasks := by
  refine ⟨"T1", ?_⟩
  have e1 : DepEdge exCycleTasks "T1" "T2" :=
    ⟨mkTask "T2" ["T1"] 1, by simp [exCycleTasks], rfl, by simp [mkTask]⟩
  have e2 : DepEdge exCycleTasks "T2" "T1" :=
    ⟨mkTask "T1" ["T2"] 1, by simp [exCycleTasks], rfl, by simp [mkTask]⟩
  exact Relation.TransGen.tail (Relation.TransGen.single e1) e2

/-- Witness for C4 on the two-task cycle. -/
theorem toposort_cycle_fallback_witness :
    UniqueIds exCycleTasks ∧ HasCycle exCycleTasks ∧
    (toposortIds exCycleTasks = exCycleTasks.map (fun t => t.id) ∧
      (toposortIds exCycleTasks).length = exCycleTasks.length) :=
  ⟨by decide, exCycle_hasCycle,
    toposort_cycle_fallback exCycleTasks (by decide) exCycle_hasCycle⟩

/-- C3 (amended): the first task emitted by `_toposort` on a well-formed
acyclic task set is the first task in declared order with no dependencies
(equivalently, with zero in-degree); subsequent ties follow the FIFO queue,
not a rescan of declared order. -/
theorem toposort_first_emitted (tasks : List Task) (hu : UniqueIds tasks)
    (hdeps : DepsKnown tasks) (hacyc : Acyclic tasks) (t0 : Task)
    (h0 : tasks.find? (fun t => t.dependencies.isEmpty) = some t0) :
    ∃ rest, toposortIds tasks = t0.id :: rest := by
  have hfilter_eq : tasks.filter (fun t => buildIndeg tasks t.id = 0) =
      tasks.filter (fun t => t.dependencies.isEmpty) := by
    apply List.filter_congr
    intro t ht
    rw [buildIndeg_of_unique hu ht]
    cases hde : t.dependencies with
    | nil => simp [hde]
    | cons d ds =>
        simp [hde]
        omega
  obtain ⟨ftl, hftl⟩ := filter_of_find?_eq_some tasks _ t0 h0
  obtain ⟨outF, indF, heq, hfin, htopo⟩ := toposort_no_fallback hu hdeps hacyc
  have hq0 : (tasks.filter (fun t => buildIndeg tasks t.id = 0)).map (fun t => t.id) =
      t0.id :: ftl.map (fun t => t.id) := by
    rw [hfilter_eq, hftl]
    simp
  rw [hq0] at heq
  simp only [kahnLoop] at heq
  obtain ⟨tl, htl⟩ := kahnLoop_prefix (buildG tasks) (2 * tasks.length)
    (processEdges (buildG tasks t0.id) (buildIndeg tasks) (ftl.map (fun t => t.id))).1
    (processEdges (buildG tasks t0.id) (buildIndeg tasks) (ftl.map (fun t => t.id))).2
    ([] ++ [t0.id])
  rw [htl] at heq
  refine ⟨tl, ?_⟩
  rw [htopo, ← heq]
  simp

/-- Witness for C3's amended theorem on the A/B/C example. -/
theorem toposort_first_emitted_witness :
    UniqueIds exScanTasks ∧ DepsKnown exScanTasks ∧ Acyclic exScanTasks ∧
    exScanTasks.find? (fun t => t.dependencies.isEmpty) = some (mkTask "A" [] 1) ∧
    ∃ rest, toposortIds exScanTasks = (mkTask "A" [] 1).id :: rest :=
  ⟨by decide, by decide, exScan_acyclic, by decide,
    toposort_first_emitted exScanTasks (by decide) (by decide) exScan_acyclic
      (mkTask "A" [] 1) (by decide)⟩

lemma mapM_times_spec (times : String → Option (Int × Int)) :
    ∀ (deps : List String), (∀ d ∈ deps, (times d).isSome) →
      ∃ vals, deps.mapM (fun d => (times d).map (fun p => p.2)) = some vals ∧
        ∀ d ∈ deps, ∃ s2 e2, times d = some (s2, e2) ∧ e2 ∈ vals
  | [], _ => ⟨[], by rw [← List.mapM'_eq_mapM]; rfl, by simp⟩
  | d :: ds, hall => by
      have hd := hall d (List.mem_cons_self _ _)
      obtain ⟨p, hp⟩ := Option.isSome_iff_exists.mp hd
      obtain ⟨vals, hv, hvm⟩ :=
        mapM_times_spec times ds (fun d2 h2 => hall d2 (List.mem_cons_of_mem _ h2))
      rw [← List.mapM'_eq_mapM] at hv
      refine ⟨p.2 :: vals, ?_, ?_⟩
      · rw [← List.mapM'_eq_mapM]
        simp [List.mapM', hp, hv]
      · intro d2 hd2
        rcases List.mem_cons.mp hd2 with rfl | hmem
        · exact ⟨p.1, p.2, by rw [hp], List.mem_cons_self _ _⟩
        · obtain ⟨s2, e2, h1, h2⟩ := hvm d2 hmem
          exact ⟨s2, e2, h1, List.mem_cons_of_mem _ h2⟩

lemma mapM_sched_spec (timesF : String → Option (Int × Int)) :
    ∀ (order : List String), (∀ x ∈ order, (timesF x).isSome) →
      ∃ sched, order.mapM (fun tid => (timesF tid).map (fun p => (tid, p.1, p.2))) =
        some sched ∧

        ∀ tid s e, ((tid, s, e) ∈ sched ↔ tid ∈ order ∧ timesF tid = some (s, e))
  | [], _ => ⟨[], by rw [← List.mapM'_eq_mapM]; rfl, by simp⟩
  | tid :: rest, hall => by
      obtain ⟨p, hp⟩ := Option.isSome_iff_exists.mp (hall tid (List.mem_cons_self _ _))
      obtain ⟨sched, hm, hmem⟩ :=
        mapM_sched_spec timesF rest (fun x hx => hall x (List.mem_cons_of_mem _ hx))
      rw [← List.mapM'_eq_mapM] at hm
      refine ⟨(tid, p.1, p.2) :: sched, by rw [← List.mapM'_eq_mapM]; simp [List.mapM', hp, hm], ?_⟩
      intro x s e
      constructor
      · intro hx
        rcases List.mem_cons.mp hx with heq | hmem2
        · simp only [Prod.mk.injEq] at heq
          obtain ⟨rfl, rfl, rfl⟩ := heq
          exact ⟨List.mem_cons_self _ _, by rw [hp]⟩
        · obtain ⟨h1, h2⟩ := (hmem x s e).mp hmem2
          exact ⟨List.mem_cons_of_mem _ h1, h2⟩
      · rintro ⟨hxin, hxeq⟩
        rcases List.mem_cons.mp hxin with rfl | hmem2
        · have hpe : p = (s, e) := by
            rw [hp] at hxeq
            injection hxeq
          exact List.mem_cons.mpr (Or.inl (by rw [hpe]))
        · exact List.mem_cons_of_mem _ ((hmem x s e).mpr ⟨hmem2, hxeq⟩)

lemma schedGo_spec {tasks : List Task} (hu : UniqueIds tasks) (nowMs : Int)
    (order : List String) (hnodup : order.Nodup)
    (hids : ∀ x ∈ order, x ∈ idsOf tasks)
    (hord : ∀ l1 x l2, order = l1 ++ x :: l2 → ∀ t ∈ tasks, t.id = x →
      ∀ d ∈ t.dependencies, d ∈ l1) :
    ∀ (suf pre : List String) (times : String → Option (Int × Int)),
      order = pre ++ suf →
      (∀ x, (times x).isSome ↔ x ∈ pre) →
      (∀ t ∈ tasks, t.id ∈ pre → ∃ s e, times t.id = some (s, e) ∧
        e = s + durationMs t ∧
        (∀ w, t.window_start = some w → w ≤ s) ∧
        (∀ d ∈ t.dependencies, ∃ s2 e2, times d = some (s2, e2) ∧ e2 ≤ s)) →
      ∃ timesF, schedGo (taskMap tasks) nowMs suf times = some timesF ∧
        (∀ x, (timesF x).isSome ↔ x ∈ order) ∧
        (∀ t ∈ tasks, t.id ∈ order → ∃ s e, timesF t.id = some (s, e) ∧
          e = s + durationMs t ∧
          (∀ w, t.window_start = some w → w ≤ s) ∧
          (∀ d ∈ t.dependencies, ∃ s2 e2, timesF d = some (s2, e2) ∧ e2 ≤ s)) := by
  intro suf
  induction suf with
  | nil =>
      intro pre times hsplit hdom hprops
      rw [List.append_nil] at hsplit
      subst hsplit
      exact ⟨times, by simp [schedGo], hdom, hprops⟩
  | cons tid rest ih =>
      intro pre times hsplit hdom hprops
      have htid_mem : tid ∈ order := by
        rw [hsplit]
        simp
      obtain ⟨t0, ht0, hid0⟩ := mem_idsOf.mp (hids tid htid_mem)
      have htmap : taskMap tasks tid = some t0 := by
        rw [← hid0]
        exact taskMap_of_unique tasks hu t0 ht0
      have hdeps_pre : ∀ d ∈ t0.dependencies, d ∈ pre :=
        fun d hd => hord pre tid rest hsplit t0 ht0 hid0 d hd
      have hdeps_some : ∀ d ∈ t0.dependencies, (times d).isSome :=
        fun d hd => (hdom d).mpr (hdeps_pre d hd)
      obtain ⟨vals, hvalseq, hvalsmem⟩ := mapM_times_spec times t0.dependencies hdeps_some
      have htid_notpre : tid ∉ pre := by
        rw [hsplit, List.nodup_append] at hnodup
        exact fun hmem => hnodup.2.2 hmem (List.mem_cons_self _ _)
      have hsplit2 : order = (pre ++ [tid]) ++ rest := by
        rw [hsplit]
        simp
      simp only [schedGo, htmap, hvalseq]
      apply ih (pre ++ [tid]) _ hsplit2
      · intro x
        by_cases hx : x = tid
        · subst hx
          simp
        · simp only [if_neg hx, List.mem_append, List.mem_singleton, hx, or_false]
          exact hdom x
      · intro t ht hmem
        rcases List.mem_append.mp hmem with hpre | htide
        · obtain ⟨s, e, hse, he, hw, hdps⟩ := hprops t ht hpre
          have htne : ¬(t.id = tid) := fun he2 => htid_notpre (he2 ▸ hpre)
          refine ⟨s, e, by rw [if_neg htne]; exact hse, he, hw, ?_⟩
          intro d hd
          obtain ⟨s2, e2, hd2, hle⟩ := hdps d hd
          have hdpre : d ∈ pre := (hdom d).mp (by rw [hd2]; rfl)
          have hdne : ¬(d = tid) := fun he2 => htid_notpre (he2 ▸ hdpre)
          exact ⟨s2, e2, by rw [if_neg hdne]; exact hd2, hle⟩
        · rw [List.mem_singleton] at htide
          have hteq : t = t0 := id_inj_of_unique hu ht ht0 (by rw [htide, hid0])
          subst hteq
          refine ⟨max (maxWithDefault nowMs vals)
              (match t.window_start with | some w => w | none => nowMs),
            max (maxWithDefault nowMs vals)
              (match t.window_start with | some w => w | none => nowMs) + durationMs t,
            by rw [if_pos htide], rfl, ?_, ?_⟩
          · intro w hw
            rw [hw]
            exact le_max_right _ _
          · intro d hd
            obtain ⟨s2, e2, hd2, hin⟩ := hvalsmem d hd
            have hdne : ¬(d = tid) := fun he2 => htid_notpre (he2 ▸ hdeps_pre d hd)
            refine ⟨s2, e2, by rw [if_neg hdne]; exact hd2, ?_⟩
            exact le_trans (maxWithDefault_ge_mem nowMs vals e2 hin) (le_max_left _ _)

/-- C5: on every well-formed acyclic task set (unique ids, known
dependencies, no cycle) whose durations are all present and positive,
`_schedule` succeeds, and for every task the recorded end is the start plus
the task's duration (converted to milliseconds exactly as the source does),
the start is at least the task's window start when one is present, and the
start is at least the recorded end of every one of its dependencies. -/
theorem schedule_respects_deps (tasks : List Task) (nowIso : Option Int) (ambient : Int)
    (hu : UniqueIds tasks) (hdeps : DepsKnown tasks) (hacyc : Acyclic tasks)
    (hpos : ∀ t ∈ tasks, ∃ d, t.duration_hours = some d ∧ 0 < d) :
    ∃ sched, scheduleG tasks nowIso ambient = some sched ∧
      ∀ t ∈ tasks, ∃ s e, (t.id, s, e) ∈ sched ∧ e = s + durationMs t ∧
        (∀ w, t.window_start = some w → w ≤ s) ∧
        (∀ d ∈ t.dependencies, ∀ s2 e2, (d, s2, e2) ∈ sched → e2 ≤ s) := by
  obtain ⟨hperm, hnodup, hord⟩ := toposort_machinery hu hdeps hacyc
  have hids : ∀ x ∈ toposortIds tasks, x ∈ idsOf tasks :=
    fun x hx => hperm.mem_iff.mp hx
  obtain ⟨timesF, hgo, hdomF, hpropsF⟩ :=
    schedGo_spec hu (nowIso.getD ambient) (toposortIds tasks) hnodup hids hord
      (toposortIds tasks) [] (fun _ => none) (by simp) (by simp) (by simp)
  obtain ⟨sched, hmapm, hschedmem⟩ :=
    mapM_sched_spec timesF (toposortIds tasks) (fun x hx => (hdomF x).mpr hx)
  have hsched_eq : scheduleG tasks nowIso ambient = some sched := by
    simp only [scheduleG]
    rw [hgo]
    exact hmapm
  refine ⟨sched, hsched_eq, ?_⟩
  intro t ht
  have htmem : t.id ∈ toposortIds tasks :=
    hperm.mem_iff.mpr (List.mem_map_of_mem _ ht)
  obtain ⟨s, e, hse, he, hw, hdeps2⟩ := hpropsF t ht htmem
  refine ⟨s, e, (hschedmem t.id s e).mpr ⟨htmem, hse⟩, he, hw, ?_⟩
  intro d hd s2 e2 hmem2
  obtain ⟨hdord, hd2⟩ := (hschedmem d s2 e2).mp hmem2
  obtain ⟨s3, e3, hd3, hle⟩ := hdeps2 d hd
  have h7 : some (s3, e3) = some (s2, e2) := by rw [← hd3, hd2]
  have h8 : (s3, e3) = (s2, e2) := by injection h7
  have h9 : e3 = e2 := congrArg Prod.snd h8
  rw [← h9]
  exact hle

/-- Witness for C5 on the three-task scenario at reference instant 0. -/
theorem schedule_respects_deps_witness :
    UniqueIds exThreeTasks ∧ DepsKnown exThreeTasks ∧ Acyclic exThreeTasks ∧
    (∀ t ∈ exThreeTasks, ∃ d, t.duration_hours = some d ∧ 0 < d) ∧
    (∃ sched, scheduleG exThreeTasks (some 0) 0 = some sched ∧
      ∀ t ∈ exThreeTasks, ∃ s e, (t.id, s, e) ∈ sched ∧ e = s + durationMs t ∧
        (∀ w, t.window_start = some w → w ≤ s) ∧
        (∀ d ∈ t.dependencies, ∀ s2 e2, (d, s2, e2) ∈ sched → e2 ≤ s)) := by
  have hpos : ∀ t ∈ exThreeTasks, ∃ d, t.duration_hours = some d ∧ 0 < d := by
    intro t ht
    simp only [exThreeTasks, mkTask, List.mem_cons, List.not_mem_nil, or_false] at ht
    rcases ht with h | h | h <;> subst h
    · exact ⟨4, rfl, by norm_num⟩
    · exact ⟨3, rfl, by norm_num⟩
    · exact ⟨6, rfl, by norm_num⟩
  exact ⟨by decide, by decide, exThree_acyclic, hpos,
    schedule_respects_deps exThreeTasks (some 0) 0 (by decide) (by decide)
      exThree_acyclic hpos⟩

end Coa
